import Mathlib

/-!
Verification of the geometric core of the Weave_B3D Fusion 360 add-in
(`src/commands/Weave_B3D.py`).

The add-in slices a solid into horizontal layers, reassembles each slice's
boundary fragments into an ordered loop, samples the loop by arc length,
displaces each sample along its outward normal by a periodic
(sine-based, tanh-saturated) wave, and searches for inner/outer offset
distances by a bounded retry loop.

This file gives a shallow embedding of those components:

* `calculate_wave_points_cpu` (source lines 388-427) over `ℝ`;
* `final_amplitude_calc`, the per-layer amplitude clamp
  (source lines 218-220) over `ℚ` (binary floats idealized as exact
  rationals; the constant 0.75 is exactly representable);
* `extract_curve_data` (source lines 529-609) over `ℝ`, with the host
  CAD curve evaluator abstracted as a function from arc length to
  (point, tangent);
* the start-curve scan of `get_ordered_curves` (source lines 457-488)
  over `ℚ`, with the float `inf` initializer modelled by an `Option`
  state (the first endpoint always takes the reset branch, exactly as
  any finite value compares below infinity minus the tolerance);
* the offset retry loops and error accounting of
  `SerpentineCommandExecuteHandler.notify` (source lines 283-362) over
  `ℚ`, with the sketch-offset/profile-classification oracle abstracted
  as a function from (call index, half thickness) to an optional list
  of profile areas (`none` models a raised geometric exception).
-/

/-- 3-D point / vector with real coordinates, standing for the host's
`Point3D`/`Vector3D`. -/
@[ext]
structure Vec3 where
  x : ℝ
  y : ℝ
  z : ℝ

namespace Vec3

/-- Componentwise addition. -/
def add (a b : Vec3) : Vec3 :=
  ⟨a.x + b.x, a.y + b.y, a.z + b.z⟩

/-- Scalar multiple. -/
def smul (c : ℝ) (a : Vec3) : Vec3 :=
  ⟨c * a.x, c * a.y, c * a.z⟩

/-- Negation, modelling `Vector3D.scaleBy(-1.0)`. -/
def neg (a : Vec3) : Vec3 :=
  ⟨-a.x, -a.y, -a.z⟩

/-- Cross product, modelling `Vector3D.crossProduct`. -/
def cross (a b : Vec3) : Vec3 :=
  ⟨a.y * b.z - a.z * b.y, a.z * b.x - a.x * b.z, a.x * b.y - a.y * b.x⟩

/-- Euclidean norm. -/
noncomputable def norm (a : Vec3) : ℝ :=
  Real.sqrt (a.x ^ 2 + a.y ^ 2 + a.z ^ 2)

/-- Scaling to unit length, modelling `Vector3D.normalize`. -/
noncomputable def normalize (a : Vec3) : Vec3 :=
  smul (1 / a.norm) a

end Vec3

/-- One entry of the `points_and_normals` list built by
`extract_curve_data`: position, outward normal and cumulative perimeter
position. -/
structure SampleItem where
  point : Vec3
  normal : Vec3
  perimeter_pos : ℝ

/-- The per-layer dictionary returned by `extract_curve_data`. -/
structure LayerData where
  z_height : ℝ
  total_perimeter : ℝ
  final_amplitude : ℝ
  geometry : List SampleItem

/-- The displacement magnitude computed for one sample inside
`calculate_wave_points_cpu` (source lines 402-414):
`final_amplitude * tanh(sharpness * sin(phase))` with
`phase = (perimeter_pos / total_perimeter) * frequency * 2π + offset`. -/
noncomputable def wave_displacement (final_amplitude total_perimeter : ℝ)
    (wave_frequency : ℕ) (layer_phase_offset wave_sharpness perimeter_pos : ℝ) : ℝ :=
  final_amplitude * Real.tanh (wave_sharpness *
    Real.sin ((perimeter_pos / total_perimeter) * (wave_frequency : ℝ) * 2 * Real.pi
      + layer_phase_offset))

/-- Shallow embedding of `calculate_wave_points_cpu` (source lines
388-427): maps every geometry item of one layer to a displaced point.
The per-item new point list `[x, y, z]` of the source is rendered as a
`Vec3`. -/
noncomputable def calculate_wave_points_cpu (slice_count : ℕ) (layer_data : LayerData)
    (wave_frequency : ℕ) (phase_shift_degrees wave_sharpness : ℝ) : List Vec3 :=
  let phase_shift_in_radians := phase_shift_degrees * (Real.pi / 180)
  let layer_phase_offset := (slice_count : ℝ) * phase_shift_in_radians
  let total_perimeter := layer_data.total_perimeter
  let final_amplitude := layer_data.final_amplitude
  layer_data.geometry.map fun item =>
    let displacement := wave_displacement final_amplitude total_perimeter
      wave_frequency layer_phase_offset wave_sharpness item.perimeter_pos
    ⟨item.point.x + item.normal.x * displacement,
     item.point.y + item.normal.y * displacement,
     item.point.z + item.normal.z * displacement⟩

/-- Shallow embedding of the per-layer amplitude clamp (source lines
218-220):
`wave_length_helper = max_perimeter / wave_frequency`,
`max_allowed_amplitude = ((wave_length_helper / 2) - wall_thickness) * 0.75`,
`final_amplitude = min(wave_amplitude, max_allowed_amplitude)`. -/
def final_amplitude_calc (max_perimeter : ℚ) (wave_frequency : ℕ)
    (wall_thickness wave_amplitude : ℚ) : ℚ :=
  let wave_length_helper := max_perimeter / (wave_frequency : ℚ)
  let max_allowed_amplitude := ((wave_length_helper / 2) - wall_thickness) * (3 / 4)
  min wave_amplitude max_allowed_amplitude

/-- One entry of `ordered_curves_data` as consumed by
`extract_curve_data`: the fragment's length, its arc-length evaluator
(the host curve oracle, `getParameterAtLength` / `getPointAtParameter` /
`getTangent` collapsed into one function from distance to
(point, tangent)), and the traversal direction flag. -/
structure OrderedFragment where
  length : ℝ
  eval : ℝ → Vec3 × Vec3
  is_reversed : Bool

/-- The per-fragment sample count of `extract_curve_data` (source line
560): `max(2, int((curve_length / total_perimeter) * (wave_frequency * 3)))`.
Python `int()` truncates toward zero; for nonnegative arguments
truncation agrees with the floor, and for negative arguments both
truncation and floor are absorbed by the `max 2`. -/
noncomputable def num_points_calc (curve_length total_perimeter : ℝ)
    (wave_frequency : ℕ) : ℕ :=
  (max 2 ⌊(curve_length / total_perimeter) * ((wave_frequency : ℝ) * 3)⌋).toNat

/-- Body of the per-fragment sampling loop of `extract_curve_data`
(source lines 550-602): the samples contributed by one fragment, given
the running cumulative length and whether this is the last fragment of
the loop. -/
noncomputable def sampleFragment (data : OrderedFragment) (plane_normal : Vec3)
    (cumulative_length total_perimeter : ℝ) (wave_frequency : ℕ)
    (is_last_curve_in_loop : Bool) : List SampleItem :=
  let curve_length := data.length
  let num_points := num_points_calc curve_length total_perimeter wave_frequency
  let pts0 := if is_last_curve_in_loop then num_points else num_points - 1
  let points_to_sample_on_this_curve := if pts0 < 1 then 1 else pts0
  (List.range points_to_sample_on_this_curve).map fun i : ℕ =>
    let fraction := if 1 < num_points then (i : ℝ) / ((num_points - 1 : ℕ) : ℝ) else 0
    let dist_from_start :=
      if data.is_reversed then (1 - fraction) * curve_length else fraction * curve_length
    let current_perimeter_pos := cumulative_length + fraction * curve_length
    let pt := data.eval dist_from_start
    let tangent := if data.is_reversed then Vec3.neg pt.2 else pt.2
    let normal := Vec3.normalize (Vec3.cross tangent plane_normal)
    ⟨pt.1, normal, current_perimeter_pos⟩

/-- The fragment loop of `extract_curve_data`: walks the ordered
fragments accumulating `cumulative_length`; only the final fragment is
flagged as last (`curve_index == num_ordered_curves - 1`). -/
noncomputable def extractLoop (plane_normal : Vec3) (total_perimeter : ℝ)
    (wave_frequency : ℕ) : List OrderedFragment → ℝ → List SampleItem
  | [], _ => []
  | [data], cumulative_length =>
      sampleFragment data plane_normal cumulative_length total_perimeter
        wave_frequency true
  | data :: rest@(_ :: _), cumulative_length =>
      sampleFragment data plane_normal cumulative_length total_perimeter
        wave_frequency false
        ++ extractLoop plane_normal total_perimeter wave_frequency rest
            (cumulative_length + data.length)

/-- Shallow embedding of `extract_curve_data` (source lines 529-609):
`total_perimeter` is the sum of the fragment lengths and the geometry
is the concatenation of the per-fragment samples. -/
noncomputable def extract_curve_data (ordered_curves_data : List OrderedFragment)
    (plane_normal : Vec3) (z_height : ℝ) (wave_frequency : ℕ)
    (final_amplitude : ℝ) : LayerData :=
  let total_perimeter := (ordered_curves_data.map OrderedFragment.length).sum
  ⟨z_height, total_perimeter, final_amplitude,
    extractLoop plane_normal total_perimeter wave_frequency ordered_curves_data 0⟩

/-- Nominal perimeter positions of one fragment: `m` samples taken at
fractions `i / (n - 1)` of the fragment, offset by the cumulative
length `c`. -/
noncomputable def fragment_positions (n m : ℕ) (c len : ℝ) : List ℝ :=
  (List.range m).map fun i : ℕ => c + ((i : ℝ) / ((n - 1 : ℕ) : ℝ)) * len

/-- The claim's per-fragment sample count, written from the spec's
words: `max(2, floor((fragment_length / total_perimeter) * frequency * 3))`. -/
noncomputable def claim_num_points (fragment_length total_perimeter : ℝ)
    (frequency : ℕ) : ℕ :=
  (max 2 ⌊fragment_length / total_perimeter * (frequency : ℝ) * 3⌋).toNat

/-- The claim's sampled perimeter positions, written from the spec's
words and stated over the list of fragment lengths: each fragment gets
`num_points` nominal positions at fractions `i/(num_points-1)`; every
fragment except the last emits only its first `num_points - 1` samples,
while the last fragment emits all of them. -/
noncomputable def claim_sample_positions (frequency : ℕ) (total_perimeter : ℝ) :
    List ℝ → ℝ → List ℝ
  | [], _ => []
  | [len], c =>
      fragment_positions (claim_num_points len total_perimeter frequency)
        (claim_num_points len total_perimeter frequency) c len
  | len :: rest@(_ :: _), c =>
      fragment_positions (claim_num_points len total_perimeter frequency)
        (claim_num_points len total_perimeter frequency - 1) c len
        ++ claim_sample_positions frequency total_perimeter rest (c + len)

/-- A one-fragment loop of length 1: the curve oracle traces the unit
segment along the x-axis, with in-plane tangent. -/
noncomputable def unitFragment : OrderedFragment :=
  ⟨1, fun d => (⟨d, 0, 0⟩, ⟨1, 0, 0⟩), false⟩

/-- 2-D sketch point; only the X and Y coordinates take part in the
start-curve scan of `get_ordered_curves`. -/
structure Pt2 where
  x : ℚ
  y : ℚ
deriving DecidableEq

/-- A sketch curve as seen by `get_ordered_curves`: its natural start
and end points. -/
structure SketchCurve where
  startPoint : Pt2
  endPoint : Pt2
deriving DecidableEq

/-- The connection tolerance of `get_ordered_curves` (source line 454). -/
def connection_tolerance : ℚ := 1 / 100

/-- The endpoints visited by the start-curve scan (source lines
463-472): for each curve, in input order, its start point then its end
point, each tagged with the owning curve's index. -/
def endpoint_entries (curves : List SketchCurve) : List (Pt2 × ℕ) :=
  curves.enum.flatMap fun p => [(p.2.startPoint, p.1), (p.2.endPoint, p.1)]

/-- One step of the start-curve scan (source lines 465-472).  The float
`inf` initialization of `min_y`/`min_x` is modelled by `none`: the
first endpoint always satisfies `y < inf - tol` and takes the reset
branch, and no endpoint satisfies `|y - inf| < tol`. -/
def start_scan_step (st : Option (ℚ × ℚ × ℕ)) (e : Pt2 × ℕ) : Option (ℚ × ℚ × ℕ) :=
  match st with
  | none => some (e.1.y, e.1.x, e.2)
  | some (min_y, min_x, idx) =>
      if e.1.y < min_y - connection_tolerance then some (e.1.y, e.1.x, e.2)
      else if |e.1.y - min_y| < connection_tolerance ∧ e.1.x < min_x then
        some (min_y, e.1.x, e.2)
      else some (min_y, min_x, idx)

/-- The start-curve scan of `get_ordered_curves` (source lines
459-472): fold the step over all endpoint entries, yielding the final
`(min_y, min_x, start-curve index)`. -/
def find_start_curve (curves : List SketchCurve) : Option (ℚ × ℚ × ℕ) :=
  (endpoint_entries curves).foldl start_scan_step none

/-- The chosen start curve with its traversal flag (source lines
479-488): `is_reversed` is `false` exactly when the curve's natural
start point lies within the connection tolerance of the selected
`(min_x, min_y)` in both coordinates. -/
def start_curve_selection (curves : List SketchCurve) : Option (ℕ × Bool) :=
  match find_start_curve curves with
  | none => none
  | some (min_y, min_x, idx) =>
      match curves[idx]? with
      | none => none
      | some c =>
          some (idx,
            ! decide (|c.startPoint.y - min_y| < connection_tolerance
              ∧ |c.startPoint.x - min_x| < connection_tolerance))

/-- The claim's start rule, written from the spec's words: among all
fragment endpoints pick the one with the lowest Y coordinate, ties
within the connection tolerance broken by the lowest X coordinate.
`p` at curve index `i` is a legitimate choice when `p` is an endpoint
entry, `p.y` is within tolerance of the minimal Y over all endpoints,
and `p.x` is minimal among all endpoints within tolerance of that
minimal Y. -/
def claim_start_choice (curves : List SketchCurve) (p : Pt2) (i : ℕ) : Prop :=
  (p, i) ∈ endpoint_entries curves ∧
  ∃ ymin : ℚ,
    (∀ q ∈ endpoint_entries curves, ymin ≤ q.1.y) ∧
    (∃ q ∈ endpoint_entries curves, q.1.y = ymin) ∧
    |p.y - ymin| < connection_tolerance ∧
    ∀ q ∈ endpoint_entries curves,
      |q.1.y - ymin| < connection_tolerance → p.x ≤ q.1.x

/-- Three curves whose low endpoints form a tolerance chain in scan
order: y = 0.018, then 0.009, then 0 (tolerance 0.01). -/
def cexCurves : List SketchCurve :=
  [⟨⟨0, 9 / 500⟩, ⟨0, 10⟩⟩, ⟨⟨1, 9 / 1000⟩, ⟨1, 10⟩⟩, ⟨⟨2, 0⟩, ⟨2, 10⟩⟩]

/-- The profile classification shared by the offset retry loops and the
extrusion block (source lines 298, 318, 337): the profiles with area
above 0.01, in listed order.  The `isValid` test is host state and is
absorbed into the oracle's output. -/
def classified_regions (areas : List ℚ) : List ℚ :=
  areas.filter fun a => decide ((1 : ℚ) / 100 < a)

/-- Success test of an internal offset attempt (source line 299):
exactly 2 classified regions and the first smaller than the second. -/
def internal_success (areas : List ℚ) : Bool :=
  match classified_regions areas with
  | [a, b] => decide (a < b)
  | _ => false

/-- Success test of an external offset attempt (source line 319):
exactly 3 classified regions and the first smaller than the last. -/
def external_success (areas : List ℚ) : Bool :=
  match classified_regions areas with
  | [a, _, c] => decide (a < c)
  | _ => false

/-- State of one offset retry loop: the iteration counter, the growing
perturbation step, and the current half wall thickness. -/
structure SearchState where
  iteration : ℕ
  increase : ℚ
  half_wall_thickness : ℚ
deriving DecidableEq

/-- The iteration bound of the offset search (source line 181). -/
def max_offset_iterations : ℕ := 100

/-- One iteration of an offset retry loop (source lines 293-309 and
313-329): the iteration counter and the step size are incremented, the
offset/classification oracle is consulted (`none` models a raised
geometric exception), and on failure the attempt's produced curves are
discarded and the half thickness is perturbed by the current step with
a sign alternating on iteration parity (`+` on odd iterations).
Returns the new state and whether the loop exits. -/
def offset_step (attempt : ℕ → ℚ → Option (List ℚ)) (success : List ℚ → Bool)
    (s : SearchState) : SearchState × Bool :=
  let iteration := s.iteration + 1
  let increase := s.increase + 1 / 10000
  match attempt iteration s.half_wall_thickness with
  | some areas =>
      if success areas then (⟨iteration, increase, s.half_wall_thickness⟩, true)
      else
        (⟨iteration, increase,
          s.half_wall_thickness
            + (if iteration % 2 = 1 then increase else -increase)⟩, false)
  | none =>
      (⟨iteration, increase,
        s.half_wall_thickness
          + (if iteration % 2 = 1 then increase else -increase)⟩, false)

/-- The offset retry loop (`while iteration < max_offset_iterations`),
with explicit fuel: starting from iteration 0 with fuel
`max_offset_iterations`, this is exactly the source loop, since every
iteration increments the counter by one. -/
def run_offset_search (attempt : ℕ → ℚ → Option (List ℚ))
    (success : List ℚ → Bool) : ℕ → SearchState → SearchState × Bool
  | 0, s => (s, false)
  | fuel + 1, s =>
      if s.iteration < max_offset_iterations then
        match offset_step attempt success s with
        | (s', true) => (s', true)
        | (s', false) => run_offset_search attempt success fuel s'
      else (s, false)

/-- One full per-layer offset search (source lines 291-333): the
internal loop then the external loop, each starting at
`wall_thickness / 2` with iteration 0 and step 0, followed by the error
accounting `if intern_iteration == max_offset_iterations or
extern_iteration == max_offset_iterations`, which sets `one_error` and
increments the layer error counter by one.  Returns both loop results
and the error-counter increment. -/
def layer_offset_search (internal_attempt : ℕ → ℚ → Option (List ℚ))
    (external_attempt : ℕ → ℚ → Option (List ℚ)) (wall_thickness : ℚ) :
    (SearchState × Bool) × (SearchState × Bool) × ℕ :=
  let ri := run_offset_search internal_attempt internal_success
    max_offset_iterations ⟨0, 0, wall_thickness / 2⟩
  let re := run_offset_search external_attempt external_success
    max_offset_iterations ⟨0, 0, wall_thickness / 2⟩
  let err := if ri.1.iteration = max_offset_iterations
      ∨ re.1.iteration = max_offset_iterations then 1 else 0
  (ri, re, err)

/-- The internal-offset oracle of the C7 counterexample: one region for
the first 99 calls, success (two ordered regions) on call 100. -/
def cexInternalAttempt : ℕ → ℚ → Option (List ℚ) :=
  fun it _ => if it = 100 then some [1, 2] else some [1]

/-- The external-offset oracle of the C7 counterexample: immediate
success (three ordered regions). -/
def cexExternalAttempt : ℕ → ℚ → Option (List ℚ) :=
  fun _ _ => some [1, 2, 3]

/-- Outcome of the extrusion block (source lines 335-362) after both
offset loops have exited:
`kept` = the `break # All good` path, the body is kept and the search
loop exits; `discarded` = the micro-volume path, extrusion and offset
curves are deleted and control returns to the retry loop;
`retryNoBody` = extrusion produced no bodies, control falls through to
the retry loop; `wrongProfiles` = the `continue` on a profile count
other than 3; `errored` = a raised exception, which increments the
error counter and breaks. -/
inductive ExtrudeOutcome
  | kept
  | discarded
  | retryNoBody
  | wrongProfiles
  | errored
deriving DecidableEq

/-- The extrusion block (source lines 335-362): classify the profiles;
on a count other than 3, retry; otherwise extrude (the oracle yields
the body count and the volume of the resulting solid, `none` models a
raised exception); a solid of volume below `1e-3` is deleted and the
attempt treated as a retry without touching the error counter;
otherwise the body is kept.  Returns the outcome and the error-counter
increment. -/
def extrude_block (profile_areas : List ℚ) (extrude_result : Option (ℕ × ℚ)) :
    ExtrudeOutcome × ℕ :=
  if (classified_regions profile_areas).length ≠ 3 then (.wrongProfiles, 0)
  else
    match extrude_result with
    | none => (.errored, 1)
    | some (bodies_count, volume) =>
        if 0 < bodies_count then
          if volume < 1 / 1000 then (.discarded, 0) else (.kept, 0)
        else (.retryNoBody, 0)

/-- Bound used for the amplitude claim: `|tanh x| ≤ 1`. -/
theorem abs_tanh_le_one (x : ℝ) : |Real.tanh x| ≤ 1 := by
  rw [Real.tanh_eq_sinh_div_cosh, abs_div, abs_of_pos (Real.cosh_pos x),
    div_le_one (Real.cosh_pos x)]
  nlinarith [Real.cosh_sq_sub_sinh_sq x, abs_nonneg (Real.sinh x), sq_abs (Real.sinh x),
    Real.cosh_pos x]

/-- C1: for every layer with slice index `s`, non-empty samples,
positive total perimeter and positive frequency, the wave displacer
emits exactly one point per sample in order, and each output point is
`position + normal * displacement` with
`displacement = final_amplitude * tanh(sharpness * sin((perimeter_pos /
total_perimeter) * frequency * 2π + s * phase_shift_degrees * π/180))`. -/
theorem wave_points_formula (s : ℕ) (L : LayerData) (f : ℕ)
    (phase_shift_degrees wave_sharpness : ℝ)
    (hT : 0 < L.total_perimeter) (hne : L.geometry ≠ []) (hf : 0 < f) :
    (calculate_wave_points_cpu s L f phase_shift_degrees wave_sharpness).length
      = L.geometry.length ∧
    ∀ i : ℕ, ∀ hi : i < L.geometry.length,
      (calculate_wave_points_cpu s L f phase_shift_degrees wave_sharpness).get
          ⟨i, by simpa [calculate_wave_points_cpu] using hi⟩
        = Vec3.add ((L.geometry.get ⟨i, hi⟩).point)
            (Vec3.smul
              (L.final_amplitude * Real.tanh (wave_sharpness *
                Real.sin ((L.geometry.get ⟨i, hi⟩).perimeter_pos / L.total_perimeter
                    * (f : ℝ) * (2 * Real.pi)
                  + (s : ℝ) * phase_shift_degrees * (Real.pi / 180))))
              ((L.geometry.get ⟨i, hi⟩).normal)) := by
  constructor
  · simp [calculate_wave_points_cpu]
  · intro i hi
    simp only [calculate_wave_points_cpu, List.get_eq_getElem, List.getElem_map,
      wave_displacement, Vec3.add, Vec3.smul]
    set item := L.geometry[i]
    have harg : item.perimeter_pos / L.total_perimeter * (f : ℝ) * 2 * Real.pi
        + (s : ℝ) * (phase_shift_degrees * (Real.pi / 180))
      = item.perimeter_pos / L.total_perimeter * (f : ℝ) * (2 * Real.pi)
        + (s : ℝ) * phase_shift_degrees * (Real.pi / 180) := by ring
    rw [harg]
    exact Vec3.ext (by ring) (by ring) (by ring)

/-- Witness for C1 at a concrete one-sample layer. -/
theorem wave_points_formula_witness :
    (calculate_wave_points_cpu 0 ⟨0, 1, 0, [⟨⟨0, 0, 0⟩, ⟨1, 0, 0⟩, 0⟩]⟩ 1 0 1).length
      = (1 : ℕ) :=
  (wave_points_formula 0 ⟨0, 1, 0, [⟨⟨0, 0, 0⟩, ⟨1, 0, 0⟩, 0⟩]⟩ 1 0 1
    (by norm_num) (by simp) (by norm_num)).1

/-- C2: the amplitude actually used is
`min(requested, ((perimeter/frequency)/2 - wall_thickness) * 0.75)`,
and for perimeter 100, frequency 10, requested amplitude 2 and wall
thickness 0.8 it is exactly 2 (unclamped). -/
theorem final_amplitude_spec (max_perimeter : ℚ) (wave_frequency : ℕ)
    (wall_thickness wave_amplitude : ℚ)
    (hP : 0 < max_perimeter) (hf : 0 < wave_frequency) :
    final_amplitude_calc max_perimeter wave_frequency wall_thickness wave_amplitude
      = min wave_amplitude
          (((max_perimeter / (wave_frequency : ℚ)) / 2 - wall_thickness) * (3 / 4)) ∧
    final_amplitude_calc 100 10 (4 / 5) 2 = 2 := by
  constructor
  · rfl
  · norm_num [final_amplitude_calc]

/-- Witness for C2 at perimeter 100, frequency 10, thickness 0.8,
amplitude 2. -/
theorem final_amplitude_spec_witness :
    final_amplitude_calc 100 10 (4 / 5) 2 = 2 :=
  (final_amplitude_spec 100 10 (4 / 5) 2 (by norm_num) (by norm_num)).2

/-- C9: for a fixed layer the displacement is periodic in
`perimeter_pos` with period `total_perimeter / frequency` (any
sharpness), and for sharpness 1 its absolute value is bounded by the
final amplitude. -/
theorem wave_displacement_periodic_bounded (A T : ℝ) (f : ℕ) (offset p : ℝ)
    (hT : 0 < T) (hf : 0 < f) (hA : 0 ≤ A) :
    (∀ sharpness : ℝ,
      wave_displacement A T f offset sharpness (p + T / (f : ℝ))
        = wave_displacement A T f offset sharpness p) ∧
    |wave_displacement A T f offset 1 p| ≤ A := by
  constructor
  · intro sharpness
    have hT0 : T ≠ 0 := ne_of_gt hT
    have hf0 : (f : ℝ) ≠ 0 := ne_of_gt (Nat.cast_pos.mpr hf)
    have harg : (p + T / (f : ℝ)) / T * (f : ℝ) * 2 * Real.pi + offset
        = (p / T * (f : ℝ) * 2 * Real.pi + offset) + 2 * Real.pi := by
      field_simp
      ring
    unfold wave_displacement
    rw [harg, Real.sin_add_two_pi]
  · unfold wave_displacement
    rw [abs_mul, abs_of_nonneg hA]
    calc A * |Real.tanh (1 * Real.sin (p / T * (f : ℝ) * 2 * Real.pi + offset))|
        ≤ A * 1 := by
          have := abs_tanh_le_one (1 * Real.sin (p / T * (f : ℝ) * 2 * Real.pi + offset))
          nlinarith
      _ = A := mul_one A

/-- Witness for C9 at amplitude 0, perimeter 1, frequency 1. -/
theorem wave_displacement_periodic_bounded_witness :
    wave_displacement 0 1 1 0 1 (0 + 1 / ((1 : ℕ) : ℝ)) = wave_displacement 0 1 1 0 1 0 ∧
    |wave_displacement 0 1 1 0 1 0| ≤ 0 :=
  ⟨(wave_displacement_periodic_bounded 0 1 1 0 0 (by norm_num) (by norm_num)
      (le_refl 0)).1 1,
   (wave_displacement_periodic_bounded 0 1 1 0 0 (by norm_num) (by norm_num)
      (le_refl 0)).2⟩

/-- The per-fragment sample count is always at least 2. -/
theorem num_points_calc_two_le (len T : ℝ) (f : ℕ) : 2 ≤ num_points_calc len T f := by
  unfold num_points_calc
  have h : (2 : ℤ) ≤ max 2 ⌊len / T * ((f : ℝ) * 3)⌋ := le_max_left _ _
  omega

/-- The claim's sample-count formula agrees with the code's. -/
theorem claim_num_points_eq (len T : ℝ) (f : ℕ) :
    claim_num_points len T f = num_points_calc len T f := by
  unfold claim_num_points num_points_calc
  rw [mul_assoc]

theorem fragment_positions_length (n m : ℕ) (c len : ℝ) :
    (fragment_positions n m c len).length = m := by
  unfold fragment_positions
  simp

theorem fragment_positions_ne_nil (n m : ℕ) (c len : ℝ) (hm : 1 ≤ m) :
    fragment_positions n m c len ≠ [] := by
  intro hnil
  have h := fragment_positions_length n m c len
  rw [hnil] at h
  simp at h
  omega

theorem fragment_positions_head (n m : ℕ) (c len : ℝ) (hm : 1 ≤ m) :
    (fragment_positions n m c len).head? = some c := by
  unfold fragment_positions
  obtain ⟨k, rfl⟩ : ∃ k, m = k + 1 := ⟨m - 1, by omega⟩
  rw [List.range_succ_eq_map]
  simp

theorem fragment_positions_getLast (n m : ℕ) (c len : ℝ) (hm : 1 ≤ m) :
    (fragment_positions n m c len).getLast?
      = some (c + (((m - 1 : ℕ) : ℝ) / ((n - 1 : ℕ) : ℝ)) * len) := by
  unfold fragment_positions
  obtain ⟨k, rfl⟩ : ∃ k, m = k + 1 := ⟨m - 1, by omega⟩
  rw [List.range_succ, List.map_append]
  simp

theorem fragment_positions_chain (n m : ℕ) (c len : ℝ) (hn : 2 ≤ n) (hl : 0 < len) :
    List.Chain' (· < ·) (fragment_positions n m c len) := by
  unfold fragment_positions
  rw [List.chain'_map]
  match m with
  | 0 => simp
  | k + 1 =>
    rw [List.chain'_range_succ]
    intro i hi
    have hd : (0 : ℝ) < ((n - 1 : ℕ) : ℝ) := by
      have : 0 < n - 1 := by omega
      exact_mod_cast this
    have hfrac : (i : ℝ) / ((n - 1 : ℕ) : ℝ) < ((i + 1 : ℕ) : ℝ) / ((n - 1 : ℕ) : ℝ) := by
      apply div_lt_div_of_pos_right ?_ hd
      push_cast
      linarith
    nlinarith

theorem fragment_positions_mem_bounds (n m : ℕ) (c len : ℝ) (hn : 2 ≤ n) (hm : m ≤ n)
    (hl : 0 < len) : ∀ x ∈ fragment_positions n m c len, c ≤ x ∧ x ≤ c + len := by
  unfold fragment_positions
  intro x hx
  simp only [List.mem_map, List.mem_range] at hx
  obtain ⟨i, hi, rfl⟩ := hx
  have hd : (0 : ℝ) < ((n - 1 : ℕ) : ℝ) := by
    have : 0 < n - 1 := by omega
    exact_mod_cast this
  constructor
  · have h0 : 0 ≤ (i : ℝ) / ((n - 1 : ℕ) : ℝ) := by positivity
    nlinarith
  · have hfrac : (i : ℝ) / ((n - 1 : ℕ) : ℝ) ≤ 1 := by
      rw [div_le_one hd]
      have : i ≤ n - 1 := by omega
      exact_mod_cast this
    nlinarith

theorem fragment_positions_last_lt (n : ℕ) (c len : ℝ) (hn : 2 ≤ n) (hl : 0 < len) :
    ∀ x ∈ fragment_positions n (n - 1) c len, x < c + len := by
  unfold fragment_positions
  intro x hx
  simp only [List.mem_map, List.mem_range] at hx
  obtain ⟨i, hi, rfl⟩ := hx
  have hd : (0 : ℝ) < ((n - 1 : ℕ) : ℝ) := by
    have : 0 < n - 1 := by omega
    exact_mod_cast this
  have hfrac : (i : ℝ) / ((n - 1 : ℕ) : ℝ) < 1 := by
    rw [div_lt_one hd]
    exact_mod_cast hi
  nlinarith

theorem fragment_positions_full_getLast (n : ℕ) (c len : ℝ) (hn : 2 ≤ n) :
    (fragment_positions n n c len).getLast? = some (c + len) := by
  rw [fragment_positions_getLast n n c len (by omega)]
  have hd : ((n - 1 : ℕ) : ℝ) ≠ 0 := by
    have : 0 < n - 1 := by omega
    exact_mod_cast this.ne'
  rw [div_self hd, one_mul]

/-- The perimeter positions contributed by one fragment are exactly the
nominal fractions; the clamp on the sample count is a no-op because the
count is at least 2. -/
theorem sampleFragment_positions (data : OrderedFragment) (pn : Vec3)
    (c T : ℝ) (f : ℕ) (last : Bool) :
    (sampleFragment data pn c T f last).map SampleItem.perimeter_pos
      = fragment_positions (num_points_calc data.length T f)
          (if last then num_points_calc data.length T f
           else num_points_calc data.length T f - 1) c data.length := by
  have h2 := num_points_calc_two_le data.length T f
  unfold sampleFragment fragment_positions
  simp only [List.map_map]
  have hclamp : (if (if last then num_points_calc data.length T f
        else num_points_calc data.length T f - 1) < 1 then 1
      else if last then num_points_calc data.length T f
        else num_points_calc data.length T f - 1)
      = if last then num_points_calc data.length T f
        else num_points_calc data.length T f - 1 := by
    cases last <;> simp <;> omega
  rw [hclamp]
  apply List.map_congr_left
  intro i _
  simp only [Function.comp_apply]
  rw [if_pos (by omega : 1 < num_points_calc data.length T f)]

/-- The perimeter positions produced by the fragment loop agree with the
claim's description of the sampler. -/
theorem extractLoop_positions (pn : Vec3) (T : ℝ) (f : ℕ) :
    ∀ (fs : List OrderedFragment) (c : ℝ),
      (extractLoop pn T f fs c).map SampleItem.perimeter_pos
        = claim_sample_positions f T (fs.map OrderedFragment.length) c
  | [], c => by
      simp [extractLoop, claim_sample_positions]
  | [data], c => by
      simp only [extractLoop, List.map_cons, List.map_nil, claim_sample_positions]
      rw [sampleFragment_positions]
      simp [claim_num_points_eq]
  | data :: d2 :: rest, c => by
      simp only [extractLoop, List.map_append, List.map_cons, claim_sample_positions]
      rw [sampleFragment_positions, extractLoop_positions pn T f (d2 :: rest) (c + data.length)]
      simp [claim_num_points_eq]

/-- Structural facts about the claim's sample positions: they start at
the running cumulative length, increase strictly, stay within the
fragment span, and end exactly at the far end of the span. -/
theorem claim_positions_spec (f : ℕ) (T : ℝ) :
    ∀ (lens : List ℝ) (c : ℝ), lens ≠ [] → (∀ l ∈ lens, 0 < l) →
      (claim_sample_positions f T lens c).head? = some c ∧
      List.Chain' (· < ·) (claim_sample_positions f T lens c) ∧
      (∀ x ∈ claim_sample_positions f T lens c, c ≤ x ∧ x ≤ c + lens.sum) ∧
      (claim_sample_positions f T lens c).getLast? = some (c + lens.sum)
  | [], _, hne, _ => absurd rfl hne
  | [len], c, _, hpos => by
      have hl : 0 < len := hpos len (by simp)
      have hn : 2 ≤ claim_num_points len T f := by
        rw [claim_num_points_eq]
        exact num_points_calc_two_le len T f
      simp only [claim_sample_positions, List.sum_cons, List.sum_nil, add_zero]
      refine ⟨fragment_positions_head _ _ _ _ (by omega),
        fragment_positions_chain _ _ _ _ hn hl, ?_,
        fragment_positions_full_getLast _ c len hn⟩
      intro x hx
      exact fragment_positions_mem_bounds _ _ c len hn (le_refl _) hl x hx
  | len :: len2 :: rest, c, _, hpos => by
      have hl : 0 < len := hpos len (by simp)
      have hn : 2 ≤ claim_num_points len T f := by
        rw [claim_num_points_eq]
        exact num_points_calc_two_le len T f
      have hpos' : ∀ l ∈ len2 :: rest, 0 < l := fun l hl' => hpos l (by simp [hl'])
      obtain ⟨ih_head, ih_chain, ih_bounds, ih_last⟩ :=
        claim_positions_spec f T (len2 :: rest) (c + len) (by simp) hpos'
      have hBne : claim_sample_positions f T (len2 :: rest) (c + len) ≠ [] := by
        intro h
        rw [h] at ih_head
        simp at ih_head
      have hAne : fragment_positions (claim_num_points len T f)
          (claim_num_points len T f - 1) c len ≠ [] :=
        fragment_positions_ne_nil _ _ c len (by omega)
      have hsum : (0 : ℝ) < (len2 :: rest).sum :=
        List.sum_pos (len2 :: rest) hpos' (by simp)
      simp only [claim_sample_positions, List.sum_cons]
      refine ⟨?_, ?_, ?_, ?_⟩
      · rw [List.head?_append_of_ne_nil _ hAne]
        exact fragment_positions_head _ _ c len (by omega)
      · rw [List.chain'_append]
        refine ⟨fragment_positions_chain _ _ c len hn hl, ih_chain, ?_⟩
        intro x hx y hy
        have hxA : x ∈ fragment_positions (claim_num_points len T f)
            (claim_num_points len T f - 1) c len := by
          obtain ⟨hx', rfl⟩ := List.mem_getLast?_eq_getLast hx
          exact List.getLast_mem hx'
        have hxlt : x < c + len := fragment_positions_last_lt _ c len hn hl x hxA
        have : y = c + len := by
          rw [ih_head] at hy
          exact (Option.mem_some_iff.mp hy).symm
        rw [this]
        exact hxlt
      · intro x hx
        rcases List.mem_append.mp hx with hA | hB
        · obtain ⟨h1, h2⟩ := fragment_positions_mem_bounds _ _ c len hn (by omega) hl x hA
          refine ⟨h1, ?_⟩
          rw [List.sum_cons] at hsum
          linarith
        · obtain ⟨h1, h2⟩ := ih_bounds x hB
          constructor
          · linarith
          · rw [List.sum_cons] at h2
            linarith
      · rw [List.getLast?_append_of_ne_nil _ hBne, ih_last, List.sum_cons]
        norm_num
        ring

/-- The number of samples one fragment contributes. -/
theorem sampleFragment_length (data : OrderedFragment) (pn : Vec3) (c T : ℝ)
    (f : ℕ) (last : Bool) :
    (sampleFragment data pn c T f last).length
      = if last then num_points_calc data.length T f
        else num_points_calc data.length T f - 1 := by
  have h := congrArg List.length (sampleFragment_positions data pn c T f last)
  simpa [fragment_positions_length] using h

/-- C3 (amended): for every fully-connected ordered loop with positive
fragment lengths, the perimeter positions reported by the sampler start
at 0, are strictly increasing, lie in the closed interval
`[0, total_perimeter]`, and the final one equals `total_perimeter`
exactly.  The claim's half-open interval `[0, total_perimeter)` fails:
the last sample of the last fragment sits at fraction 1 of that
fragment, i.e. exactly at `total_perimeter`. -/
theorem perimeter_positions_spec (fs : List OrderedFragment) (pn : Vec3) (z : ℝ)
    (f : ℕ) (A : ℝ) (hne : fs ≠ []) (hpos : ∀ d ∈ fs, 0 < d.length) :
    ((extract_curve_data fs pn z f A).geometry.map SampleItem.perimeter_pos).head?
        = some 0 ∧
    List.Chain' (· < ·)
      ((extract_curve_data fs pn z f A).geometry.map SampleItem.perimeter_pos) ∧
    (∀ x ∈ (extract_curve_data fs pn z f A).geometry.map SampleItem.perimeter_pos,
      0 ≤ x ∧ x ≤ (extract_curve_data fs pn z f A).total_perimeter) ∧
    ((extract_curve_data fs pn z f A).geometry.map SampleItem.perimeter_pos).getLast?
        = some (extract_curve_data fs pn z f A).total_perimeter := by
  have hlens : fs.map OrderedFragment.length ≠ [] := by simpa using hne
  have hpos' : ∀ l ∈ fs.map OrderedFragment.length, 0 < l := by
    intro l hl
    obtain ⟨d, hd, rfl⟩ := List.mem_map.mp hl
    exact hpos d hd
  obtain ⟨h1, h2, h3, h4⟩ := claim_positions_spec f ((fs.map OrderedFragment.length).sum)
    (fs.map OrderedFragment.length) 0 hlens hpos'
  have hgeom : (extract_curve_data fs pn z f A).geometry.map SampleItem.perimeter_pos
      = claim_sample_positions f ((fs.map OrderedFragment.length).sum)
          (fs.map OrderedFragment.length) 0 :=
    extractLoop_positions pn _ f fs 0
  have hT : (extract_curve_data fs pn z f A).total_perimeter
      = (fs.map OrderedFragment.length).sum := rfl
  rw [hgeom, hT]
  refine ⟨h1, h2, ?_, by simpa using h4⟩
  intro x hx
  have hb := h3 x hx
  simpa using hb

/-- Witness for the amended C3 at the one-fragment unit loop. -/
theorem perimeter_positions_spec_witness :
    ((extract_curve_data [unitFragment] ⟨0, 0, 1⟩ 0 1 0).geometry.map
        SampleItem.perimeter_pos).head? = some 0 :=
  (perimeter_positions_spec [unitFragment] ⟨0, 0, 1⟩ 0 1 0 (by simp)
    (by intro d hd; simp only [List.mem_singleton] at hd; subst hd
        norm_num [unitFragment])).1

/-- C3 counterexample: for the one-fragment unit loop the claim as
stated (all positions in the half-open interval, final position equal to
the total perimeter) is false — the final position equals the total
perimeter and hence violates the strict upper bound. -/
theorem perimeter_positions_claim_counterexample :
    ¬ (List.Chain' (· < ·)
        ((extract_curve_data [unitFragment] ⟨0, 0, 1⟩ 0 1 0).geometry.map
          SampleItem.perimeter_pos) ∧
      ((extract_curve_data [unitFragment] ⟨0, 0, 1⟩ 0 1 0).geometry.map
          SampleItem.perimeter_pos).head? = some 0 ∧
      (∀ x ∈ (extract_curve_data [unitFragment] ⟨0, 0, 1⟩ 0 1 0).geometry.map
          SampleItem.perimeter_pos,
        0 ≤ x ∧ x < (extract_curve_data [unitFragment] ⟨0, 0, 1⟩ 0 1 0).total_perimeter) ∧
      ((extract_curve_data [unitFragment] ⟨0, 0, 1⟩ 0 1 0).geometry.map
          SampleItem.perimeter_pos).getLast?
        = some (extract_curve_data [unitFragment] ⟨0, 0, 1⟩ 0 1 0).total_perimeter) := by
  rintro ⟨-, -, hlt, hlast⟩
  have hmem : (extract_curve_data [unitFragment] ⟨0, 0, 1⟩ 0 1 0).total_perimeter
      ∈ (extract_curve_data [unitFragment] ⟨0, 0, 1⟩ 0 1 0).geometry.map
          SampleItem.perimeter_pos := by
    obtain ⟨h', heq⟩ := List.mem_getLast?_eq_getLast hlast
    rw [heq]
    exact List.getLast_mem h'
  exact absurd (hlt _ hmem).2 (lt_irrefl _)

/-- C4: the sampler's perimeter positions are exactly those described by
the claim — per fragment, `num_points = max(2, floor((len/total) *
frequency * 3))` nominal fractions `i/(num_points - 1)`, every fragment
but the last omitting its final nominal sample and the last keeping it —
and each fragment's nominal count is at least 2 with its final nominal
fraction exactly 1. -/
theorem sampler_counts_and_fractions (fs : List OrderedFragment) (pn : Vec3)
    (z A : ℝ) (f : ℕ) (hpos : ∀ d ∈ fs, 0 < d.length) (hf : 0 < f) :
    (extract_curve_data fs pn z f A).geometry.map SampleItem.perimeter_pos
      = claim_sample_positions f ((fs.map OrderedFragment.length).sum)
          (fs.map OrderedFragment.length) 0 ∧
    ∀ d ∈ fs,
      2 ≤ claim_num_points d.length ((fs.map OrderedFragment.length).sum) f ∧
      ((claim_num_points d.length ((fs.map OrderedFragment.length).sum) f - 1 : ℕ) : ℝ)
          / ((claim_num_points d.length ((fs.map OrderedFragment.length).sum) f - 1 : ℕ) : ℝ)
        = 1 := by
  refine ⟨extractLoop_positions pn _ f fs 0, ?_⟩
  intro d hd
  have h2 : 2 ≤ claim_num_points d.length ((fs.map OrderedFragment.length).sum) f := by
    rw [claim_num_points_eq]
    exact num_points_calc_two_le _ _ _
  refine ⟨h2, ?_⟩
  have hnz : ((claim_num_points d.length ((fs.map OrderedFragment.length).sum) f - 1 : ℕ) : ℝ)
      ≠ 0 := by
    have h1 : 0 < claim_num_points d.length ((fs.map OrderedFragment.length).sum) f - 1 := by
      omega
    exact_mod_cast h1.ne'
  rw [div_self hnz]

/-- Witness for C4 at the one-fragment unit loop. -/
theorem sampler_counts_and_fractions_witness :
    (extract_curve_data [unitFragment] ⟨0, 0, 1⟩ 0 1 0).geometry.map
        SampleItem.perimeter_pos
      = claim_sample_positions 1 (([unitFragment].map OrderedFragment.length).sum)
          ([unitFragment].map OrderedFragment.length) 0 :=
  (sampler_counts_and_fractions [unitFragment] ⟨0, 0, 1⟩ 0 0 1
    (by intro d hd; simp only [List.mem_singleton] at hd; subst hd
        norm_num [unitFragment])
    (by norm_num)).1

/-- With the slicing-plane normal equal to the unit Z axis, every
computed sample normal has zero Z component: the cross product with
`(0,0,1)` has zero Z component and normalization only rescales. -/
theorem sampleFragment_normal_z (data : OrderedFragment) (c T : ℝ) (f : ℕ)
    (last : Bool) :
    ∀ item ∈ sampleFragment data ⟨0, 0, 1⟩ c T f last, item.normal.z = 0 := by
  intro item hitem
  simp only [sampleFragment, List.mem_map, List.mem_range] at hitem
  obtain ⟨i, -, rfl⟩ := hitem
  cases hrev : data.is_reversed <;>
    simp [Vec3.normalize, Vec3.cross, Vec3.smul, Vec3.neg, hrev]

/-- Every sample produced by the fragment loop with plane normal
`(0,0,1)` has a normal with zero Z component. -/
theorem extractLoop_normal_z (T : ℝ) (f : ℕ) :
    ∀ (fs : List OrderedFragment) (c : ℝ),
      ∀ item ∈ extractLoop ⟨0, 0, 1⟩ T f fs c, item.normal.z = 0
  | [], c => by simp [extractLoop]
  | [d], c => by
      intro item hitem
      exact sampleFragment_normal_z d c T f true item (by simpa [extractLoop] using hitem)
  | d :: d2 :: rest, c => by
      intro item hitem
      simp only [extractLoop, List.mem_append] at hitem
      rcases hitem with h | h
      · exact sampleFragment_normal_z d c T f false item h
      · exact extractLoop_normal_z T f (d2 :: rest) (c + d.length) item h

/-- C10 (implicit): when the slicing plane's normal is the unit Z axis
and every sampled tangent lies in the slicing plane, each computed
sample normal has zero Z component, so every displaced wavy point has
exactly the Z coordinate of its source sample. -/
theorem displacement_stays_in_plane (fs : List OrderedFragment) (z A : ℝ)
    (f s : ℕ) (phase_shift_degrees wave_sharpness : ℝ)
    (htan : ∀ d ∈ fs, ∀ t : ℝ, ((d.eval t).2).z = 0) :
    (∀ item ∈ (extract_curve_data fs ⟨0, 0, 1⟩ z f A).geometry, item.normal.z = 0) ∧
    ∀ i : ℕ, ∀ hi : i < (extract_curve_data fs ⟨0, 0, 1⟩ z f A).geometry.length,
      ((calculate_wave_points_cpu s (extract_curve_data fs ⟨0, 0, 1⟩ z f A) f
          phase_shift_degrees wave_sharpness).get
            ⟨i, by simpa [calculate_wave_points_cpu] using hi⟩).z
        = ((extract_curve_data fs ⟨0, 0, 1⟩ z f A).geometry.get ⟨i, hi⟩).point.z := by
  have hnz : ∀ item ∈ (extract_curve_data fs ⟨0, 0, 1⟩ z f A).geometry,
      item.normal.z = 0 := fun item h => extractLoop_normal_z _ f fs 0 item h
  refine ⟨hnz, ?_⟩
  intro i hi
  have hmem : (extract_curve_data fs ⟨0, 0, 1⟩ z f A).geometry.get ⟨i, hi⟩
      ∈ (extract_curve_data fs ⟨0, 0, 1⟩ z f A).geometry := List.get_mem _ _ hi
  have h0 := hnz _ hmem
  simp only [List.get_eq_getElem] at h0
  simp only [calculate_wave_points_cpu, List.get_eq_getElem, List.getElem_map]
  rw [h0]
  ring

/-- The unit one-fragment layer yields exactly 3 samples. -/
theorem unit_layer_length :
    (extract_curve_data [unitFragment] ⟨0, 0, 1⟩ 0 1 0).geometry.length = 3 := by
  have hsum : ([unitFragment].map OrderedFragment.length).sum = 1 := by
    simp [unitFragment]
  have h3 : num_points_calc unitFragment.length 1 1 = 3 := by
    unfold num_points_calc
    have hfl : ⌊(unitFragment.length / 1) * (((1 : ℕ) : ℝ) * 3)⌋ = 3 := by
      norm_num [unitFragment]
    rw [hfl]
    decide
  show (extractLoop ⟨0, 0, 1⟩ (([unitFragment].map OrderedFragment.length).sum) 1
      [unitFragment] 0).length = 3
  rw [hsum]
  rw [show extractLoop ⟨0, 0, 1⟩ 1 1 [unitFragment] 0
      = sampleFragment unitFragment ⟨0, 0, 1⟩ 0 1 1 true from by simp [extractLoop]]
  rw [sampleFragment_length]
  simp [h3]

/-- Witness for C10 at the one-fragment unit loop, sample index 0. -/
theorem displacement_stays_in_plane_witness :
    ((calculate_wave_points_cpu 0 (extract_curve_data [unitFragment] ⟨0, 0, 1⟩ 0 1 0) 1
        0 1).get ⟨0, by simp [calculate_wave_points_cpu, unit_layer_length]⟩).z
      = ((extract_curve_data [unitFragment] ⟨0, 0, 1⟩ 0 1 0).geometry.get
          ⟨0, by simp [unit_layer_length]⟩).point.z := by
  have h := (displacement_stays_in_plane [unitFragment] 0 0 1 0 0 1
    (by intro d hd t; simp only [List.mem_singleton] at hd; subst hd; rfl)).2 0
    (by simp [unit_layer_length])
  exact h

/-- The internal success test holds exactly for two ordered classified
regions. -/
theorem internal_success_iff (areas : List ℚ) :
    internal_success areas = true ↔
      ∃ a b : ℚ, classified_regions areas = [a, b] ∧ a < b := by
  unfold internal_success
  rcases h : classified_regions areas with - | ⟨a, - | ⟨b, - | ⟨c, l⟩⟩⟩ <;> simp
  exact ⟨fun hlt => ⟨a, b, ⟨rfl, rfl⟩, hlt⟩,
    by rintro ⟨a', b', ⟨rfl, rfl⟩, hlt⟩; exact hlt⟩

/-- The external success test holds exactly for three classified
regions with the first smaller than the last. -/
theorem external_success_iff (areas : List ℚ) :
    external_success areas = true ↔
      ∃ a b c : ℚ, classified_regions areas = [a, b, c] ∧ a < c := by
  unfold external_success
  rcases h : classified_regions areas with - | ⟨a, - | ⟨b, - | ⟨c, - | ⟨d, l⟩⟩⟩⟩ <;> simp
  exact ⟨fun hlt => ⟨a, b, c, ⟨rfl, rfl, rfl⟩, hlt⟩,
    by rintro ⟨a', b', c', ⟨rfl, rfl, rfl⟩, hlt⟩; exact hlt⟩

/-- Equation for an offset attempt whose oracle raises. -/
theorem offset_step_none (attempt : ℕ → ℚ → Option (List ℚ)) (success : List ℚ → Bool)
    (s : SearchState) (h : attempt (s.iteration + 1) s.half_wall_thickness = none) :
    offset_step attempt success s
      = (⟨s.iteration + 1, s.increase + 1 / 10000,
          s.half_wall_thickness
            + (if (s.iteration + 1) % 2 = 1 then s.increase + 1 / 10000
               else -(s.increase + 1 / 10000))⟩, false) := by
  simp only [offset_step, h]

/-- Equation for a successful offset attempt. -/
theorem offset_step_some_ok (attempt : ℕ → ℚ → Option (List ℚ)) (success : List ℚ → Bool)
    (s : SearchState) (areas : List ℚ)
    (h : attempt (s.iteration + 1) s.half_wall_thickness = some areas)
    (hs : success areas = true) :
    offset_step attempt success s
      = (⟨s.iteration + 1, s.increase + 1 / 10000, s.half_wall_thickness⟩, true) := by
  simp only [offset_step, h, hs, if_true]

/-- Equation for an offset attempt whose classification fails. -/
theorem offset_step_some_fail (attempt : ℕ → ℚ → Option (List ℚ)) (success : List ℚ → Bool)
    (s : SearchState) (areas : List ℚ)
    (h : attempt (s.iteration + 1) s.half_wall_thickness = some areas)
    (hs : success areas = false) :
    offset_step attempt success s
      = (⟨s.iteration + 1, s.increase + 1 / 10000,
          s.half_wall_thickness
            + (if (s.iteration + 1) % 2 = 1 then s.increase + 1 / 10000
               else -(s.increase + 1 / 10000))⟩, false) := by
  simp only [offset_step, h, hs, Bool.false_eq_true, if_false]

/-- An offset attempt exits the loop exactly when the oracle answers and
the success test passes. -/
theorem offset_step_success_iff (attempt : ℕ → ℚ → Option (List ℚ))
    (success : List ℚ → Bool) (s : SearchState) :
    (offset_step attempt success s).2 = true ↔
      ∃ areas, attempt (s.iteration + 1) s.half_wall_thickness = some areas ∧
        success areas = true := by
  cases h : attempt (s.iteration + 1) s.half_wall_thickness with
  | none => rw [offset_step_none attempt success s h]; simp [h]
  | some areas =>
      cases hs : success areas
      · rw [offset_step_some_fail attempt success s areas h hs]; simp [h, hs]
      · rw [offset_step_some_ok attempt success s areas h hs]
        exact ⟨fun _ => ⟨areas, rfl, hs⟩, fun _ => rfl⟩

/-- C6: an internal probing attempt succeeds exactly when the
classified regions are exactly two with the first smaller than the
second, an external attempt exactly when they are exactly three with
the first smaller than the last; on any other outcome — including an
oracle exception — the produced curves are discarded and the half
thickness is perturbed by a step that grows by 0.0001 each iteration
and whose sign alternates with the iteration parity, while a successful
attempt leaves the half thickness unchanged. -/
theorem offset_step_spec (attempt : ℕ → ℚ → Option (List ℚ)) (s : SearchState) :
    ((offset_step attempt internal_success s).2 = true ↔
      ∃ areas, attempt (s.iteration + 1) s.half_wall_thickness = some areas ∧
        ∃ a b : ℚ, classified_regions areas = [a, b] ∧ a < b) ∧
    ((offset_step attempt external_success s).2 = true ↔
      ∃ areas, attempt (s.iteration + 1) s.half_wall_thickness = some areas ∧
        ∃ a b c : ℚ, classified_regions areas = [a, b, c] ∧ a < c) ∧
    (∀ success : List ℚ → Bool,
      (offset_step attempt success s).2 = false →
        (offset_step attempt success s).1
          = ⟨s.iteration + 1, s.increase + 1 / 10000,
              s.half_wall_thickness
                + (if (s.iteration + 1) % 2 = 1 then s.increase + 1 / 10000
                   else -(s.increase + 1 / 10000))⟩) ∧
    (∀ success : List ℚ → Bool,
      (offset_step attempt success s).2 = true →
        (offset_step attempt success s).1.half_wall_thickness
          = s.half_wall_thickness) := by
  refine ⟨?_, ?_, ?_, ?_⟩
  · rw [offset_step_success_iff]
    exact exists_congr fun areas => and_congr_right fun _ => internal_success_iff areas
  · rw [offset_step_success_iff]
    exact exists_congr fun areas => and_congr_right fun _ => external_success_iff areas
  · intro success hfail
    cases h : attempt (s.iteration + 1) s.half_wall_thickness with
    | none => rw [offset_step_none attempt success s h]
    | some areas =>
        cases hs : success areas
        · rw [offset_step_some_fail attempt success s areas h hs]
        · rw [offset_step_some_ok attempt success s areas h hs] at hfail
          simp at hfail
  · intro success hok
    cases h : attempt (s.iteration + 1) s.half_wall_thickness with
    | none =>
        rw [offset_step_none attempt success s h] at hok
        simp at hok
    | some areas =>
        cases hs : success areas
        · rw [offset_step_some_fail attempt success s areas h hs] at hok
          simp at hok
        · rw [offset_step_some_ok attempt success s areas h hs]

/-- Witness for C6: a two-ordered-regions oracle succeeds; an
exception-raising oracle fails and perturbs the state as described. -/
theorem offset_step_spec_witness :
    (offset_step (fun _ _ => some [1, 2]) internal_success ⟨0, 0, 1⟩).2 = true ∧
    (offset_step (fun _ _ => none) internal_success ⟨0, 0, 1⟩).1
      = ⟨1, 1 / 10000, 1 + 1 / 10000⟩ := by
  constructor
  · refine (offset_step_spec (fun _ _ => some [1, 2]) ⟨0, 0, 1⟩).1.mpr
      ⟨[1, 2], rfl, 1, 2, ?_, by norm_num⟩
    unfold classified_regions
    simp only [List.filter]
    norm_num
  · have h := (offset_step_spec (fun _ _ => none) ⟨0, 0, 1⟩).2.2.1 internal_success
      (by simp [offset_step])
    rw [h]
    simp only [SearchState.mk.injEq]
    norm_num

/-- C8: when both offset directions have succeeded (three classified
profiles) and extrusion yields a solid, a volume below `1e-3` discards
the attempt's geometry without touching the error counter, while a
volume of at least `1e-3` keeps the extruded body and exits the search
loop. -/
theorem extrude_micro_volume_spec (areas : List ℚ) (bodies : ℕ) (vol : ℚ)
    (h3 : (classified_regions areas).length = 3) (hb : 0 < bodies) :
    (vol < 1 / 1000 →
      extrude_block areas (some (bodies, vol)) = (ExtrudeOutcome.discarded, 0)) ∧
    (1 / 1000 ≤ vol →
      extrude_block areas (some (bodies, vol)) = (ExtrudeOutcome.kept, 0)) := by
  unfold extrude_block
  rw [if_neg (by simp [h3])]
  constructor <;> intro hv
  · simp [hb, hv]
    linarith
  · simp [hb, not_lt.mpr hv]
    linarith

/-- Witness for C8: three unit-scale profiles, one body; volume 0 is
discarded without an error increment, volume 1 is kept. -/
theorem extrude_micro_volume_spec_witness :
    extrude_block [1, 2, 3] (some (1, 0)) = (ExtrudeOutcome.discarded, 0) ∧
    extrude_block [1, 2, 3] (some (1, 1)) = (ExtrudeOutcome.kept, 0) := by
  have h3 : (classified_regions [1, 2, 3]).length = 3 := by
    unfold classified_regions
    simp only [List.filter]
    norm_num
  exact ⟨(extrude_micro_volume_spec [1, 2, 3] 1 0 h3 (by norm_num)).1 (by norm_num),
    (extrude_micro_volume_spec [1, 2, 3] 1 1 h3 (by norm_num)).2 (by norm_num)⟩

/-- Every offset iteration advances the counter by exactly one. -/
theorem offset_step_iteration (attempt : ℕ → ℚ → Option (List ℚ))
    (success : List ℚ → Bool) (s : SearchState) :
    (offset_step attempt success s).1.iteration = s.iteration + 1 := by
  cases h : attempt (s.iteration + 1) s.half_wall_thickness with
  | none => rw [offset_step_none attempt success s h]
  | some areas =>
      cases hs : success areas
      · rw [offset_step_some_fail attempt success s areas h hs]
      · rw [offset_step_some_ok attempt success s areas h hs]

/-- Loop equation: the guard fails. -/
theorem run_offset_search_stop (attempt : ℕ → ℚ → Option (List ℚ))
    (success : List ℚ → Bool) (s : SearchState) (fuel : ℕ)
    (h : ¬ s.iteration < max_offset_iterations) :
    run_offset_search attempt success (fuel + 1) s = (s, false) := by
  simp only [run_offset_search, if_neg h]

/-- Loop equation: the iteration succeeds and the loop breaks. -/
theorem run_offset_search_ok (attempt : ℕ → ℚ → Option (List ℚ))
    (success : List ℚ → Bool) (s : SearchState) (fuel : ℕ) (s' : SearchState)
    (hlt : s.iteration < max_offset_iterations)
    (h : offset_step attempt success s = (s', true)) :
    run_offset_search attempt success (fuel + 1) s = (s', true) := by
  simp only [run_offset_search, if_pos hlt, h]

/-- Loop equation: the iteration fails and the loop continues. -/
theorem run_offset_search_fail (attempt : ℕ → ℚ → Option (List ℚ))
    (success : List ℚ → Bool) (s : SearchState) (fuel : ℕ) (s' : SearchState)
    (hlt : s.iteration < max_offset_iterations)
    (h : offset_step attempt success s = (s', false)) :
    run_offset_search attempt success (fuel + 1) s
      = run_offset_search attempt success fuel s' := by
  simp only [run_offset_search, if_pos hlt, h]

/-- The retry loop never leaves the iteration bound. -/
theorem run_offset_search_iteration_le (attempt : ℕ → ℚ → Option (List ℚ))
    (success : List ℚ → Bool) :
    ∀ (fuel : ℕ) (s : SearchState), s.iteration ≤ max_offset_iterations →
      (run_offset_search attempt success fuel s).1.iteration ≤ max_offset_iterations
  | 0, _, h => h
  | fuel + 1, s, h => by
      by_cases hlt : s.iteration < max_offset_iterations
      · rcases hstep : offset_step attempt success s with ⟨s', ok⟩
        have hit : s'.iteration = s.iteration + 1 := by
          have h2 := offset_step_iteration attempt success s
          rw [hstep] at h2
          exact h2
        cases ok
        · rw [run_offset_search_fail attempt success s fuel s' hlt hstep]
          exact run_offset_search_iteration_le attempt success fuel s' (by omega)
        · rw [run_offset_search_ok attempt success s fuel s' hlt hstep]
          show s'.iteration ≤ max_offset_iterations
          omega
      · rw [run_offset_search_stop attempt success s fuel hlt]
        exact h

/-- An attempt whose classification never passes makes every iteration
fail. -/
theorem offset_step_fail_of_attempt (attempt : ℕ → ℚ → Option (List ℚ))
    (success : List ℚ → Bool) (s : SearchState)
    (h : ∀ areas, attempt (s.iteration + 1) s.half_wall_thickness = some areas →
      success areas = false) :
    (offset_step attempt success s).2 = false := by
  cases ha : attempt (s.iteration + 1) s.half_wall_thickness with
  | none => rw [offset_step_none attempt success s ha]
  | some areas => rw [offset_step_some_fail attempt success s areas ha (h areas ha)]

/-- A loop all of whose iterations fail exhausts the bound: it returns
no success and its final iteration counter equals the bound. -/
theorem run_offset_search_all_fail (attempt : ℕ → ℚ → Option (List ℚ))
    (success : List ℚ → Bool)
    (hfail : ∀ s : SearchState, (offset_step attempt success s).2 = false) :
    ∀ (fuel : ℕ) (s : SearchState), s.iteration + fuel = max_offset_iterations →
      (run_offset_search attempt success fuel s).2 = false ∧
      (run_offset_search attempt success fuel s).1.iteration = max_offset_iterations
  | 0, s, h => ⟨rfl, by simpa using h⟩
  | fuel + 1, s, h => by
      have hlt : s.iteration < max_offset_iterations := by omega
      rcases hstep : offset_step attempt success s with ⟨s', ok⟩
      have hok : ok = false := by
        have h2 := hfail s
        rw [hstep] at h2
        exact h2
      subst hok
      rw [run_offset_search_fail attempt success s fuel s' hlt hstep]
      have hit : s'.iteration = s.iteration + 1 := by
        have h2 := offset_step_iteration attempt success s
        rw [hstep] at h2
        exact h2
      exact run_offset_search_all_fail attempt success hfail fuel s' (by omega)

/-- C7 (amended): each direction performs at most 100 iterations; the
layer error counter is incremented (by exactly one) exactly when a
direction's final iteration counter equals 100 — whether or not that
100th attempt succeeded; a search in which both directions succeed
before their 100th iteration is never counted as an error; and an
internal oracle whose classification never passes exhausts the bound
and increments the counter by exactly one. -/
theorem offset_search_bound_and_errors (ia ea : ℕ → ℚ → Option (List ℚ)) (w : ℚ) :
    (layer_offset_search ia ea w).1.1.iteration ≤ max_offset_iterations ∧
    (layer_offset_search ia ea w).2.1.1.iteration ≤ max_offset_iterations ∧
    ((layer_offset_search ia ea w).2.2 = 1 ↔
      (layer_offset_search ia ea w).1.1.iteration = max_offset_iterations
        ∨ (layer_offset_search ia ea w).2.1.1.iteration = max_offset_iterations) ∧
    ((layer_offset_search ia ea w).2.2 = 1 ∨ (layer_offset_search ia ea w).2.2 = 0) ∧
    ((layer_offset_search ia ea w).1.2 = true
        ∧ (layer_offset_search ia ea w).1.1.iteration < max_offset_iterations
        ∧ (layer_offset_search ia ea w).2.1.2 = true
        ∧ (layer_offset_search ia ea w).2.1.1.iteration < max_offset_iterations →
      (layer_offset_search ia ea w).2.2 = 0) ∧
    ((∀ it h areas, ia it h = some areas → internal_success areas = false) →
      (layer_offset_search ia ea w).1.2 = false
        ∧ (layer_offset_search ia ea w).1.1.iteration = max_offset_iterations
        ∧ (layer_offset_search ia ea w).2.2 = 1) := by
  refine ⟨?_, ?_, ?_, ?_, ?_, ?_⟩
  · simpa [layer_offset_search] using
      run_offset_search_iteration_le ia internal_success max_offset_iterations
        ⟨0, 0, w / 2⟩ (by simp)
  · simpa [layer_offset_search] using
      run_offset_search_iteration_le ea external_success max_offset_iterations
        ⟨0, 0, w / 2⟩ (by simp)
  · simp only [layer_offset_search]
    split_ifs with hc
    · simp [hc]
    · simp [hc]
  · simp only [layer_offset_search]
    split_ifs <;> simp
  · rintro ⟨-, h2, -, h4⟩
    simp only [layer_offset_search] at h2 h4 ⊢
    rw [if_neg]
    push_neg
    exact ⟨by omega, by omega⟩
  · intro hcond
    have hfail : ∀ s : SearchState, (offset_step ia internal_success s).2 = false :=
      fun s => offset_step_fail_of_attempt ia internal_success s
        fun areas ha => hcond _ _ areas ha
    obtain ⟨hf, hit⟩ := run_offset_search_all_fail ia internal_success hfail
      max_offset_iterations ⟨0, 0, w / 2⟩ (by simp)
    refine ⟨by simpa [layer_offset_search] using hf,
      by simpa [layer_offset_search] using hit, ?_⟩
    simp only [layer_offset_search]
    rw [if_pos (Or.inl hit)]

theorem classified_regions_one : classified_regions [1] = [1] := by
  unfold classified_regions
  simp only [List.filter]
  norm_num

theorem classified_regions_one_two : classified_regions [1, 2] = [1, 2] := by
  unfold classified_regions
  simp only [List.filter]
  norm_num

theorem classified_regions_one_two_three :
    classified_regions [1, 2, 3] = [1, 2, 3] := by
  unfold classified_regions
  simp only [List.filter]
  norm_num

/-- A single region fails the internal test. -/
theorem internal_success_one : internal_success [1] = false := by
  unfold internal_success
  rw [classified_regions_one]

/-- Two ordered regions pass the internal test. -/
theorem internal_success_one_two : internal_success [1, 2] = true := by
  rw [internal_success_iff]
  exact ⟨1, 2, classified_regions_one_two, by norm_num⟩

/-- Three ordered regions pass the external test. -/
theorem external_success_one_two_three : external_success [1, 2, 3] = true := by
  rw [external_success_iff]
  exact ⟨1, 2, 3, classified_regions_one_two_three, by norm_num⟩

/-- The counterexample internal search fails 99 times and then succeeds
exactly on the 100th iteration. -/
theorem cex_run : ∀ (fuel : ℕ) (s : SearchState),
    s.iteration + fuel = 100 → 1 ≤ fuel →
    (run_offset_search cexInternalAttempt internal_success fuel s).2 = true ∧
    (run_offset_search cexInternalAttempt internal_success fuel s).1.iteration = 100
  | 0, _, _, hf => absurd hf (by norm_num)
  | fuel + 1, s, hs, _ => by
      have hlt : s.iteration < max_offset_iterations := by
        unfold max_offset_iterations
        omega
      rcases Nat.eq_zero_or_pos fuel with hf0 | hfpos
      · subst hf0
        have hit : s.iteration = 99 := by omega
        have ha : cexInternalAttempt (s.iteration + 1) s.half_wall_thickness
            = some [1, 2] := by
          unfold cexInternalAttempt
          rw [hit]
          norm_num
        have hok := offset_step_some_ok cexInternalAttempt internal_success s [1, 2]
          ha internal_success_one_two
        rw [run_offset_search_ok cexInternalAttempt internal_success s 0 _ hlt hok]
        exact ⟨rfl, by simp [hit]⟩
      · have hne : s.iteration + 1 ≠ 100 := by omega
        have ha : cexInternalAttempt (s.iteration + 1) s.half_wall_thickness
            = some [1] := by
          unfold cexInternalAttempt
          rw [if_neg hne]
        have hstep := offset_step_some_fail cexInternalAttempt internal_success s [1]
          ha internal_success_one
        rw [run_offset_search_fail cexInternalAttempt internal_success s fuel _ hlt hstep]
        exact cex_run fuel _ (by simp; omega) (by omega)

/-- The counterexample external search succeeds at once. -/
theorem cex_external_run :
    (run_offset_search cexExternalAttempt external_success max_offset_iterations
      ⟨0, 0, 1 / 2⟩).2 = true := by
  have ha : cexExternalAttempt ((0 : ℕ) + 1) ((1 : ℚ) / 2) = some [1, 2, 3] := rfl
  have hok := offset_step_some_ok cexExternalAttempt external_success ⟨0, 0, 1 / 2⟩
    [1, 2, 3] ha external_success_one_two_three
  rw [show max_offset_iterations = 99 + 1 from rfl]
  rw [run_offset_search_ok cexExternalAttempt external_success ⟨0, 0, 1 / 2⟩ 99 _
    (by norm_num [max_offset_iterations]) hok]

/-- C7 counterexample: with an internal oracle that yields one region
for 99 iterations and succeeds exactly on the 100th, and an external
oracle succeeding at once, both directions succeed within the bound,
yet the layer is counted as an error (counter incremented by 1),
contradicting the claim that only an unsuccessful exhaustion of the
bound is counted. -/
theorem offset_search_error_despite_success :
    (layer_offset_search cexInternalAttempt cexExternalAttempt 1).1.2 = true ∧
    (layer_offset_search cexInternalAttempt cexExternalAttempt 1).2.1.2 = true ∧
    (layer_offset_search cexInternalAttempt cexExternalAttempt 1).2.2 = 1 := by
  obtain ⟨hok, hit⟩ := cex_run max_offset_iterations ⟨0, 0, 1 / 2⟩
    (by simp [max_offset_iterations]) (by norm_num [max_offset_iterations])
  refine ⟨by simpa [layer_offset_search] using hok,
    by simpa [layer_offset_search] using cex_external_run, ?_⟩
  have hit' : (run_offset_search cexInternalAttempt internal_success
      max_offset_iterations ⟨0, 0, 1 / 2⟩).1.iteration = max_offset_iterations := hit
  simp only [layer_offset_search]
  rw [if_pos (Or.inl hit')]

/-- Witness for the amended C7: an internal oracle always yielding one
region exhausts the bound without success and increments the error
counter by exactly one. -/
theorem offset_search_bound_and_errors_witness :
    (layer_offset_search (fun _ _ => some [1]) cexExternalAttempt 1).1.2 = false ∧
    (layer_offset_search (fun _ _ => some [1]) cexExternalAttempt 1).1.1.iteration
      = max_offset_iterations ∧
    (layer_offset_search (fun _ _ => some [1]) cexExternalAttempt 1).2.2 = 1 :=
  (offset_search_bound_and_errors (fun _ _ => some [1]) cexExternalAttempt 1).2.2.2.2.2
    (by
      intro it h areas ha
      cases ha
      exact internal_success_one)

/-- Invariant of the start-curve scan: under tolerance separation (every
endpoint's Y either equals `p.y` or exceeds it by more than the
tolerance) and strict X-minimality of `p` among the minimal-Y
endpoints, the scan ends at `(p.y, p.x, i)` — provided `(p, i)` is
still ahead, or the scan has already settled on it. -/
theorem start_scan_aux (p : Pt2) (i : ℕ) :
    ∀ (l : List (Pt2 × ℕ)) (st : Option (ℚ × ℚ × ℕ)),
      (∀ q ∈ l, q.1.y = p.y ∨ p.y + connection_tolerance < q.1.y) →
      (∀ q ∈ l, q.1.y = p.y → q = (p, i) ∨ p.x < q.1.x) →
      (((p, i) ∈ l ∧
          (st = none ∨
            ∃ my mx idx, st = some (my, mx, idx) ∧
              (p.y + connection_tolerance < my ∨ (my = p.y ∧ p.x < mx)))) ∨
        st = some (p.y, p.x, i)) →
      l.foldl start_scan_step st = some (p.y, p.x, i)
  | [], _, _, _, hinv => by
      rcases hinv with ⟨habs, -⟩ | hdone
      · simp at habs
      · simpa using hdone
  | e :: l, st, hsep, hx, hinv => by
      have htolpos : (0 : ℚ) < connection_tolerance := by norm_num [connection_tolerance]
      have hsep' : ∀ q ∈ l, q.1.y = p.y ∨ p.y + connection_tolerance < q.1.y :=
        fun q hq => hsep q (List.mem_cons_of_mem e hq)
      have hx' : ∀ q ∈ l, q.1.y = p.y → q = (p, i) ∨ p.x < q.1.x :=
        fun q hq => hx q (List.mem_cons_of_mem e hq)
      have hsepe := hsep e (List.mem_cons_self e l)
      simp only [List.foldl_cons]
      apply start_scan_aux p i l (start_scan_step st e) hsep' hx'
      rcases hinv with ⟨hmem, hpre⟩ | hdone
      · rcases List.mem_cons.mp hmem with heq | hmem'
        · -- the scanned entry is (p, i) itself
          subst heq
          right
          rcases hpre with rfl | ⟨my, mx, idx, rfl, hcase⟩
          · rfl
          · simp only [start_scan_step]
            rcases hcase with hgt | ⟨rfl, hlt⟩
            · rw [if_pos (by linarith : p.y < my - connection_tolerance)]
            · rw [if_neg (by simp; linarith),
                if_pos ⟨by simpa using htolpos, hlt⟩]
        · -- (p, i) still ahead in l
          rcases hpre with rfl | ⟨my, mx, idx, rfl, hcase⟩
          · rcases hsepe with hey | hgt
            · rcases hx e (List.mem_cons_self e l) hey with rfl | hxlt
              · right; rfl
              · left
                exact ⟨hmem', Or.inr ⟨e.1.y, e.1.x, e.2, rfl, Or.inr ⟨hey, hxlt⟩⟩⟩
            · left
              exact ⟨hmem', Or.inr ⟨e.1.y, e.1.x, e.2, rfl, Or.inl hgt⟩⟩
          · simp only [start_scan_step]
            rcases hcase with hgt | ⟨rfl, hplt⟩
            · by_cases hreset : e.1.y < my - connection_tolerance
              · rw [if_pos hreset]
                rcases hsepe with hey | hgt2
                · rcases hx e (List.mem_cons_self e l) hey with rfl | hxlt
                  · right; rfl
                  · left
                    exact ⟨hmem', Or.inr ⟨e.1.y, e.1.x, e.2, rfl, Or.inr ⟨hey, hxlt⟩⟩⟩
                · left
                  exact ⟨hmem', Or.inr ⟨e.1.y, e.1.x, e.2, rfl, Or.inl hgt2⟩⟩
              · rw [if_neg hreset]
                by_cases htie : |e.1.y - my| < connection_tolerance ∧ e.1.x < mx
                · rw [if_pos htie]
                  left
                  exact ⟨hmem', Or.inr ⟨my, e.1.x, e.2, rfl, Or.inl hgt⟩⟩
                · rw [if_neg htie]
                  left
                  exact ⟨hmem', Or.inr ⟨my, mx, idx, rfl, Or.inl hgt⟩⟩
            · have hnreset : ¬ e.1.y < p.y - connection_tolerance := by
                rcases hsepe with hey | hgt2 <;> linarith
              rw [if_neg hnreset]
              by_cases htie : |e.1.y - p.y| < connection_tolerance ∧ e.1.x < mx
              · rw [if_pos htie]
                have hey : e.1.y = p.y := by
                  rcases hsepe with hey | hgt2
                  · exact hey
                  · exfalso
                    have habs : |e.1.y - p.y| = e.1.y - p.y := abs_of_pos (by linarith)
                    rw [habs] at htie
                    linarith [htie.1]
                rcases hx e (List.mem_cons_self e l) hey with rfl | hxlt
                · right; rfl
                · left
                  exact ⟨hmem', Or.inr ⟨p.y, e.1.x, e.2, rfl, Or.inr ⟨rfl, hxlt⟩⟩⟩
              · rw [if_neg htie]
                left
                exact ⟨hmem', Or.inr ⟨p.y, mx, idx, rfl, Or.inr ⟨rfl, hplt⟩⟩⟩
      · -- the scan has already settled on (p, i): it never moves away
        subst hdone
        right
        simp only [start_scan_step]
        have hnreset : ¬ e.1.y < p.y - connection_tolerance := by
          rcases hsepe with hey | hgt <;> linarith
        rw [if_neg hnreset]
        have hntie : ¬ (|e.1.y - p.y| < connection_tolerance ∧ e.1.x < p.x) := by
          rintro ⟨ht1, ht2⟩
          rcases hsepe with hey | hgt
          · rcases hx e (List.mem_cons_self e l) hey with rfl | hxlt
            · exact absurd ht2 (lt_irrefl _)
            · linarith
          · have habs : |e.1.y - p.y| = e.1.y - p.y := abs_of_pos (by linarith)
            rw [habs] at ht1
            linarith
        rw [if_neg hntie]

/-- C5 (amended): the scan is a single left-to-right fold; when every
endpoint's Y coordinate either equals the chosen endpoint's Y or
exceeds it by more than the tolerance, and the chosen endpoint `p` (at
curve index `i`) has strictly minimal X among the minimal-Y endpoints,
then the code selects curve `i`, and `is_reversed` is `false` exactly
when `p` is the curve's natural start point — provided the curve's
start point is not a distinct point lying within tolerance of `p` in
both coordinates.  Without the separation hypotheses the scan is
order-dependent and can differ from the claim's rule (see the
counterexample). -/
theorem start_selection_spec (curves : List SketchCurve) (p : Pt2) (i : ℕ)
    (c : SketchCurve)
    (hmem : (p, i) ∈ endpoint_entries curves)
    (hsep : ∀ q ∈ endpoint_entries curves,
      q.1.y = p.y ∨ p.y + connection_tolerance < q.1.y)
    (hx : ∀ q ∈ endpoint_entries curves, q.1.y = p.y → q = (p, i) ∨ p.x < q.1.x)
    (hc : curves[i]? = some c)
    (hrevsep : p ≠ c.startPoint →
      ¬ (|c.startPoint.y - p.y| < connection_tolerance ∧
         |c.startPoint.x - p.x| < connection_tolerance)) :
    ∃ rev : Bool, start_curve_selection curves = some (i, rev) ∧
      (rev = false ↔ p = c.startPoint) := by
  have hfind := start_scan_aux p i (endpoint_entries curves) none hsep hx
    (Or.inl ⟨hmem, Or.inl rfl⟩)
  have hsel : start_curve_selection curves
      = some (i, ! decide (|c.startPoint.y - p.y| < connection_tolerance
          ∧ |c.startPoint.x - p.x| < connection_tolerance)) := by
    simp only [start_curve_selection, find_start_curve, hfind, hc]
  rw [hsel]
  by_cases hps : p = c.startPoint
  · refine ⟨false, ?_, by simp [hps]⟩
    subst hps
    norm_num [connection_tolerance]
  · refine ⟨true, ?_, by simp [hps]⟩
    have hcond := hrevsep hps
    simp [hcond]

/-- Witness for the amended C5: two curves with tolerance-separated
endpoint heights; the lowest endpoint (2, 0) belongs to curve 1 and is
its natural start, so the scan selects curve 1 unreversed. -/
theorem start_selection_spec_witness :
    start_curve_selection [⟨⟨0, 5⟩, ⟨3, 5⟩⟩, ⟨⟨2, 0⟩, ⟨1, 7⟩⟩] = some (1, false) := by
  obtain ⟨rev, h1, h2⟩ := start_selection_spec
    [⟨⟨0, 5⟩, ⟨3, 5⟩⟩, ⟨⟨2, 0⟩, ⟨1, 7⟩⟩] ⟨2, 0⟩ 1 ⟨⟨2, 0⟩, ⟨1, 7⟩⟩
    (by simp [endpoint_entries, List.enum])
    (by
      intro q hq
      simp only [endpoint_entries, List.enum] at hq
      norm_num [connection_tolerance] at hq ⊢
      rcases hq with rfl | rfl | rfl | rfl <;> norm_num)
    (by
      intro q hq hqy
      simp only [endpoint_entries, List.enum] at hq
      norm_num at hq
      rcases hq with rfl | rfl | rfl | rfl <;> simp_all)
    rfl
    (fun h => absurd rfl h)
  rw [h2.mpr rfl] at h1
  exact h1

/-- The concrete endpoint entries of the C5 counterexample curves. -/
theorem endpoint_entries_cex :
    endpoint_entries cexCurves
      = [(⟨0, 9 / 500⟩, 0), (⟨0, 10⟩, 0), (⟨1, 9 / 1000⟩, 1), (⟨1, 10⟩, 1),
         (⟨2, 0⟩, 2), (⟨2, 10⟩, 2)] := rfl

/-- The scan on the counterexample curves settles on curve 2: the chain
0.018 → 0.009 (within tolerance, larger X: no update) → 0 (full reset)
never lets the endpoint (1, 0.009) take over. -/
theorem find_start_curve_cex : find_start_curve cexCurves = some (0, 2, 2) := by
  rw [find_start_curve, endpoint_entries_cex]
  norm_num [List.foldl_cons, List.foldl_nil, start_scan_step, connection_tolerance,
    abs_sub_lt_iff]

/-- C5 counterexample: on `cexCurves` the claim's rule designates the
endpoint (1, 0.009) of curve 1 — it is within tolerance of the minimal
Y and has the least X among such endpoints, and it is the only
legitimate choice — yet the code's scan selects curve 2. -/
theorem start_selection_claim_counterexample :
    claim_start_choice cexCurves ⟨1, 9 / 1000⟩ 1 ∧
    (∀ p i, claim_start_choice cexCurves p i → i = 1) ∧
    (find_start_curve cexCurves).map (fun r => r.2.2) = some 2 ∧
    (2 : ℕ) ≠ 1 := by
  refine ⟨⟨?_, 0, ?_, ⟨(⟨2, 0⟩, 2), ?_, rfl⟩, ?_, ?_⟩, ?_, ?_, by norm_num⟩
  · rw [endpoint_entries_cex]; simp
  · intro q hq
    rw [endpoint_entries_cex] at hq
    simp at hq
    rcases hq with rfl | rfl | rfl | rfl | rfl | rfl <;> norm_num
  · rw [endpoint_entries_cex]; simp
  · norm_num [connection_tolerance, abs_lt]
  · intro q hq htol
    rw [endpoint_entries_cex] at hq
    simp at hq
    rcases hq with rfl | rfl | rfl | rfl | rfl | rfl <;>
      norm_num [connection_tolerance, abs_lt] at htol ⊢
  · rintro p i ⟨hmem, ymin, hlb, ⟨q0, hq0mem, hq0y⟩, hptol, hxmin⟩
    have h20 : ((⟨2, 0⟩ : Pt2), 2) ∈ endpoint_entries cexCurves := by
      rw [endpoint_entries_cex]; simp
    have hle0 : ymin ≤ 0 := by simpa using hlb _ h20
    have h0le : 0 ≤ ymin := by
      rw [endpoint_entries_cex] at hq0mem
      simp at hq0mem
      rcases hq0mem with rfl | rfl | rfl | rfl | rfl | rfl <;>
        rw [← hq0y] <;> norm_num
    have hymin : ymin = 0 := le_antisymm hle0 h0le
    subst hymin
    have h3 : ((⟨1, 9 / 1000⟩ : Pt2), 1) ∈ endpoint_entries cexCurves := by
      rw [endpoint_entries_cex]; simp
    have hx1 : p.x ≤ 1 := by
      simpa using hxmin _ h3 (by norm_num [connection_tolerance, abs_lt])
    rw [endpoint_entries_cex] at hmem
    simp at hmem
    rcases hmem with ⟨rfl, rfl⟩ | ⟨rfl, rfl⟩ | ⟨rfl, rfl⟩ | ⟨rfl, rfl⟩ |
        ⟨rfl, rfl⟩ | ⟨rfl, rfl⟩
    · exact absurd hptol (by norm_num [connection_tolerance, abs_lt])
    · exact absurd hptol (by norm_num [connection_tolerance, abs_lt])
    · rfl
    · rfl
    · exact absurd hx1 (by norm_num)
    · exact absurd hptol (by norm_num [connection_tolerance, abs_lt])
  · rw [find_start_curve_cex]
    rfl
